import Mathlib

/-!
# Per-base coverage accumulator (`STCoverage.cpp`)

A shallow embedding of `SnowTools::STCoverage`: the sparse coverage table
updated by `addRead`, the point query `getCoverageAtPosition`, and the
run-length emitter `ToBedgraph` over the dense vector.

Conventions of the embedding.
* Positions are integers (`Int`). `addReadLoop` and `addRead` run the loop with
  an exact counter: they give what the call does whenever its loop exits, that
  is, unless the span passes the guard, enters the loop and ends at the largest
  `int`. `addReadLoopWrap`, `addRead32` and `addReads32` carry the 32-bit
  counter of the source and are `none` when the call does not return; the
  lemma `addRead32_eq` relates the two.
* A `std::unordered_map` is its lookup function: `none` is an absent key.
  Two tables are equal exactly when they hold the same keys with the same
  values.
* Output written to the stream is the list of lines, in emission order.
-/

namespace SnowTools

/-! ## Data model -/

/-- Modelled from the spec: the aligned read (`BamRead`, declared in a header
that is not part of this file) is used only through its reference id, its
position and its end position, all of them C++ `int`s. -/
structure BamRead where
  ChrID : Int
  Position : Int
  PositionEnd : Int
deriving DecidableEq

/-- Modelled from the spec: the region descriptor (`GenomicRegion`, declared in
a header that is not part of this file): a chromosome id, `-1` when unset, and
the start and end base-pair coordinates, which are non-negative. -/
structure GenomicRegion where
  chr : Int
  pos1 : Nat
  pos2 : Nat
deriving DecidableEq

/-- Modelled from the spec: `GenomicRegion::width()`, described as
`width = end - start`. -/
def GenomicRegion.width (gr : GenomicRegion) : Nat := gr.pos2 - gr.pos1

/-- Modelled from the spec: `CovMap`, the per-chromosome counter (its typedef
is in a header that is not part of this file): a mapping from integer position
to a non-negative count. `none` is an absent key. -/
abbrev CovMap := Int → Option Nat

/-- Modelled from the spec: `CovMapMap`, the coverage table: a mapping from
chromosome id to that chromosome's counter. `none` is an absent key. -/
abbrev CovMapMap := Int → Option CovMap

/-- The counter with no key. -/
def CovMap.empty : CovMap := fun _ => none

/-- The table with no key. -/
def CovMapMap.empty : CovMapMap := fun _ => none

/-- Store `n` under key `p`. -/
def CovMap.set (cm : CovMap) (p : Int) (n : Nat) : CovMap :=
  fun q => if q = p then some n else cm q

/-- Store the counter `cm` under key `c`. -/
def CovMapMap.set (m : CovMapMap) (c : Int) (cm : CovMap) : CovMapMap :=
  fun d => if d = c then some cm else m d

/-- The subscript `cm[p]` of `std::unordered_map`: the value stored under `p`,
after inserting a value-initialised (zero) entry when `p` is absent. Returns
the value and the counter as it is after the access. -/
def CovMap.subscript (cm : CovMap) (p : Int) : Nat × CovMap :=
  match cm p with
  | some n => (n, cm)
  | none => (0, cm.set p 0)

/-- The subscript `m[c]` of the coverage table: the counter stored under `c`,
after inserting an empty counter when `c` is absent. -/
def CovMapMap.subscript (m : CovMapMap) (c : Int) : CovMap × CovMapMap :=
  match m c with
  | some cm => (cm, m)
  | none => (CovMap.empty, m.set c CovMap.empty)

/-- The accumulator object: region descriptor `m_gr`, dense vector `v`
(`uint16_t` slots), and the sparse coverage table `m_map`. -/
structure STCoverage where
  m_gr : GenomicRegion
  v : List Nat
  m_map : CovMapMap

/-- The constructor `STCoverage(gr)`: stores the region and allocates the dense
vector with `gr.width()` zero slots; the coverage table starts empty. -/
def STCoverage.new (gr : GenomicRegion) : STCoverage :=
  { m_gr := gr, v := List.replicate gr.width 0, m_map := CovMapMap.empty }

/-! ## Ingestion -/

/-- The count stored in the table for `(c, p)`, zero when a key is absent: the
table read without the insertion a subscript makes. -/
def CovMapMap.count (m : CovMapMap) (c p : Int) : Nat :=
  match m c with
  | none => 0
  | some cm => (cm p).getD 0

/-- The loop body statement `m_map[r.ChrID()][p]++`. -/
def bump (m : CovMapMap) (chr p : Int) : CovMapMap :=
  let a := m.subscript chr
  let b := a.1.subscript p
  a.2.set chr (b.2.set p (b.1 + 1))

/-- The loop `while (p <= e) { m_map[chr][p]++; ++p; }` of `addRead` with an
exact counter, from counter value `p` and table `m`. Returns the counter's
value at exit and the table. It agrees with the 32-bit loop of the source,
`addReadLoopWrap`, whenever `e` is below the largest `int`. -/
def addReadLoop (chr e : Int) (p : Int) (m : CovMapMap) : Int × CovMapMap :=
  if p ≤ e then addReadLoop chr e (p + 1) (bump m chr p) else (p, m)
termination_by (e + 1 - p).toNat
decreasing_by omega

/-- The method `addRead` with an exact loop counter: a read with a negative
position or end position is skipped; otherwise every position of
`[Position, PositionEnd]` is bumped. Only `m_map` is written. The `catch`
clause of the source handles `std::out_of_range`, which no statement of the
`try` block raises. This is the state after the call whenever the call
returns; `addRead32` says when it does. -/
def addRead (s : STCoverage) (r : BamRead) : STCoverage :=
  let p := r.Position
  let e := r.PositionEnd
  if p < 0 ∨ e < 0 then s
  else { s with m_map := (addReadLoop r.ChrID e p s.m_map).2 }

/-- A sequence of `addRead` calls, first element first. -/
def addReads (s : STCoverage) (rs : List BamRead) : STCoverage :=
  rs.foldl addRead s

/-- The closed form of the loop's table, used to state what the loop computes
when run from `p` with `p ≤ e`: chromosome `chr` is a key, every position of
`[p, e]` holds its former count plus one, and nothing else has changed. -/
def loopTable (chr e p : Int) (m : CovMapMap) : CovMapMap :=
  fun c => if c = chr then
    some (fun q => if p ≤ q ∧ q ≤ e then some (m.count chr q + 1) else (m chr).getD CovMap.empty q)
  else m c

/-! ## Point query -/

/-- The method `getCoverageAtPosition(chr, pos)`: `0` when `chr` is not a key
of the table, else the subscript `it->second[pos]` of that chromosome's
counter. The method is not `const`: it returns the value and the accumulator as
it is after the call. -/
def getCoverageAtPosition (s : STCoverage) (chr pos : Int) : Nat × STCoverage :=
  match s.m_map chr with
  | none => (0, s)
  | some cm =>
    let b := cm.subscript pos
    (b.1, { s with m_map := s.m_map.set chr b.2 })

/-- A call on the accumulator: an ingestion or a point query. -/
inductive Call where
  | ingest (r : BamRead)
  | query (chr pos : Int)
deriving DecidableEq

/-- The accumulator after one call (the value a query returns is dropped). -/
def Call.run (s : STCoverage) : Call → STCoverage
  | Call.ingest r => addRead s r
  | Call.query chr pos => (getCoverageAtPosition s chr pos).2

/-- The accumulator after a sequence of calls, first element first. -/
def runCalls (s : STCoverage) (cs : List Call) : STCoverage :=
  cs.foldl Call.run s

/-- The read span `r` is ingested (not skipped) and its inclusive interval on
chromosome `c` contains `p`. -/
def covers (c p : Int) (r : BamRead) : Bool :=
  decide (r.ChrID = c ∧ 0 ≤ r.Position ∧ 0 ≤ r.PositionEnd ∧ r.Position ≤ p ∧ p ≤ r.PositionEnd)

/-- The call is an ingestion whose span counts for `(c, p)`. -/
def Call.covers (c p : Int) : Call → Bool
  | Call.ingest r => SnowTools.covers c p r
  | Call.query _ _ => false

/-! ## Interval emitter -/

/-- One output line `chrom \t start \t end \t value`. -/
structure BedLine where
  chrom : String
  start : Nat
  stop : Nat
  value : Nat
deriving DecidableEq

/-- The local variables of `ToBedgraph` during the scan, with the lines emitted
so far. -/
structure ScanState where
  out : List BedLine
  curr_start : Nat
  curr_val : Nat

/-- The body of the `for` loop of `ToBedgraph` at index `i` (`v->at(i)` is in
range for every index the loop visits). -/
def scanStep (name : String) (pos1 : Nat) (v : List Nat) (st : ScanState) (i : Nat) : ScanState :=
  if v.getD i 0 ≠ st.curr_val then
    { out := st.out ++ [⟨name, st.curr_start + pos1, i + pos1, st.curr_val⟩],
      curr_start := i,
      curr_val := v.getD i 0 }
  else st

/-- The first `k` iterations (`i = 0, ..., k - 1`) of the `for` loop, from the
initial state `curr_start = 0`, `curr_val = v->at(0)`. -/
def scanUpTo (name : String) (pos1 : Nat) (v : List Nat) (k : Nat) : ScanState :=
  (List.range k).foldl (scanStep name pos1 v) ⟨[], 0, v.getD 0 0⟩

/-- The whole scan `for (i = 0; i < v->size(); ++i)`. -/
def scan (name : String) (pos1 : Nat) (v : List Nat) : ScanState :=
  scanUpTo name pos1 v v.length

/-- The method `ToBedgraph`: the lines written to the stream, in order;
`name` is the chromosome name `m_gr.ChrName(h)`. -/
def ToBedgraph (s : STCoverage) (name : String) : List BedLine :=
  if s.m_gr.chr = -1 ∨ s.v.length = 0 then []
  else
    let st := scan name s.m_gr.pos1 s.v
    if st.curr_start + 1 ≠ s.v.length then
      st.out ++ [⟨name, st.curr_start + s.m_gr.pos1, s.v.length + s.m_gr.pos1 - 1, st.curr_val⟩]
    else st.out

/-- Successive lines: starts ascend strictly and each line stops where the
next one starts. -/
def Adjacent (a b : BedLine) : Prop := a.start < b.start ∧ a.stop = b.start

/-- An earlier line stops no later than a later line starts. -/
def Before (a b : BedLine) : Prop := a.stop ≤ b.start

/-- What holds of the scan state after at least one iteration, `k` being the
number of iterations done. -/
structure ScanInv (pos1 k : Nat) (st : ScanState) : Prop where
  start_lt : st.curr_start < k
  chain : List.Chain' Adjacent st.out
  last : ∀ x ∈ st.out.getLast?, x.start < st.curr_start + pos1 ∧ x.stop = st.curr_start + pos1
  pairwise : List.Pairwise Before st.out
  stop_le : ∀ l ∈ st.out, l.stop ≤ st.curr_start + pos1

/-- Reading the emitted lines as half-open intervals: each line's value
written `stop - start` times, in order. -/
def decode (ls : List BedLine) : List Nat :=
  ls.flatMap (fun l => List.replicate (l.stop - l.start) l.value)

/-! ## Keys of the coverage table -/

/-- The entry stored for `(c, p)`: `none` when `c` is not a key of the table or
`p` is not a key of the counter of `c`. -/
def CovMapMap.entry (m : CovMapMap) (c p : Int) : Option Nat :=
  (m c).bind (fun cm => cm p)

/-- The read span `r` is on chromosome `c` and enters the loop of `addRead`:
`0 ≤ Position ≤ PositionEnd`. -/
def ingests (c : Int) (r : BamRead) : Bool :=
  decide (r.ChrID = c ∧ 0 ≤ r.Position ∧ r.Position ≤ r.PositionEnd)

/-! ## The diagnostic stream of `addRead` -/

/-- A line written to `std::cerr` by the `catch` clause of `addRead`: the
position, the chromosome id and the size of the dense vector it names. -/
structure Diagnostic where
  position : Int
  tid : Int
  size : Nat
deriving DecidableEq

/-- The loop body statement as a step that may raise `std::out_of_range`. Both
subscripts are `operator[]` of `std::unordered_map`, which inserts an absent
key and raises nothing; the bounds-checked accesses `v->at(p)` of the source
are commented out. -/
def bumpTry (m : CovMapMap) (chr p : Int) : Except Unit CovMapMap :=
  Except.ok (bump m chr p)

/-! ## The loop counter as a machine `int` -/

/-- The largest value of a 32-bit `int`. -/
def INT_MAX : Int := 2147483647

/-- The smallest value of a 32-bit `int`. -/
def INT_MIN : Int := -2147483648

/-- Two's-complement wrap of an integer into the range of a 32-bit `int`. -/
def wrapInt (x : Int) : Int := (x + 2147483648) % 4294967296 - 2147483648

/-- The loop of `addRead` with a 32-bit counter whose increment wraps, run for
at most `fuel` tests of the loop condition; `none` when the loop has not
exited by then. -/
def addReadLoopWrap (chr e : Int) : Nat → Int → CovMapMap → Option (Int × CovMapMap)
  | 0, _, _ => none
  | fuel + 1, p, m =>
    if p ≤ e then addReadLoopWrap chr e fuel (wrapInt (p + 1)) (bump m chr p) else some (p, m)

/-! ## The methods with the counter as a machine `int` -/

/-- The read passes the guard of `addRead`, enters the loop, and its end
position is the largest `int` (or more): the reads on which the loop of the
source has no exit. -/
def overflows (r : BamRead) : Bool :=
  decide (0 ≤ r.Position ∧ r.Position ≤ r.PositionEnd ∧ INT_MAX ≤ r.PositionEnd)

/-- The method `addRead` with the loop counter a 32-bit `int`: the accumulator
after the call, `none` when the call does not return. The loop is given one
test more than the span has positions, which is all it uses when it exits. -/
def addRead32 (s : STCoverage) (r : BamRead) : Option STCoverage :=
  let p := r.Position
  let e := r.PositionEnd
  if p < 0 ∨ e < 0 then some s
  else (addReadLoopWrap r.ChrID e ((e + 1 - p).toNat + 1) p s.m_map).map
    (fun t => { s with m_map := t.2 })

/-- A sequence of `addRead` calls, first element first; `none` when one of
the calls does not return. -/
def addReads32 (s : STCoverage) : List BamRead → Option STCoverage
  | [] => some s
  | r :: rs => (addRead32 s r).bind (fun t => addReads32 t rs)

/-- The accumulator after one call, `none` when the call does not return. -/
def Call.run32 (s : STCoverage) : Call → Option STCoverage
  | Call.ingest r => addRead32 s r
  | Call.query chr pos => some (getCoverageAtPosition s chr pos).2

/-- The accumulator after a sequence of calls, first element first; `none`
when one of the calls does not return. -/
def runCalls32 (s : STCoverage) : List Call → Option STCoverage
  | [] => some s
  | c :: cs => (c.run32 s).bind (fun t => runCalls32 t cs)

/-- The call is an ingestion on which the loop of `addRead` has no exit. -/
def Call.overflows : Call → Bool
  | Call.ingest r => SnowTools.overflows r
  | Call.query _ _ => false

/-- The `try` block of `addRead` with a 32-bit counter, run for at most `fuel`
tests of the loop condition and left at the first raise. Returns the counter,
the table, and whether `std::out_of_range` was raised; `none` when the loop
has not exited by then. -/
def addReadTry (chr e : Int) : Nat → Int → CovMapMap → Option (Int × CovMapMap × Bool)
  | 0, _, _ => none
  | fuel + 1, p, m =>
    if p ≤ e then
      match bumpTry m chr p with
      | Except.ok m2 => addReadTry chr e fuel (wrapInt (p + 1)) m2
      | Except.error _ => some (p, m, true)
    else some (p, m, false)

/-- The method `addRead` with its diagnostic stream: the accumulator after the
call and the lines written to `std::cerr`, one when the `catch` clause runs;
`none` when the call does not return. -/
def addReadDiag (s : STCoverage) (r : BamRead) : Option (STCoverage × List Diagnostic) :=
  let p := r.Position
  let e := r.PositionEnd
  if p < 0 ∨ e < 0 then some (s, [])
  else (addReadTry r.ChrID e ((e + 1 - p).toNat + 1) p s.m_map).map
    (fun t => ({ s with m_map := t.2.1 }, if t.2.2 then [⟨t.1, r.ChrID, s.v.length⟩] else []))

/-! ## Runs of the dense array -/

/-- Successive lines carry different values. -/
def ValueChange (a b : BedLine) : Prop := a.value ≠ b.value

/-- What holds of the scan state and the array `v` after `k ≥ 1` iterations:
the current run is `v[curr_start .. k)` with value `curr_val`, and the lines
emitted so far are non-empty intervals that cover `[pos1, curr_start + pos1)`,
each carrying the array's value on what it covers, successive values
differing. -/
structure ScanRuns (pos1 : Nat) (v : List Nat) (k : Nat) (st : ScanState) : Prop where
  start_lt : st.curr_start < k
  run : ∀ i, st.curr_start ≤ i → i < k → v.getD i 0 = st.curr_val
  nonempty : ∀ l ∈ st.out, l.start < l.stop
  within : ∀ l ∈ st.out, pos1 ≤ l.start ∧ l.stop ≤ st.curr_start + pos1
  covered : ∀ x, pos1 ≤ x → x < st.curr_start + pos1 → ∃ l ∈ st.out, l.start ≤ x ∧ x < l.stop
  values : ∀ l ∈ st.out, ∀ i, l.start ≤ i + pos1 → i + pos1 < l.stop → v.getD i 0 = l.value
  change : List.Chain' ValueChange st.out
  last_change : ∀ x ∈ st.out.getLast?, x.value ≠ st.curr_val

/-- What the lines `out` emitted for the array `v` at start `pos1` satisfy:
non-empty intervals inside `[pos1, pos1 + v.length - 1)` that cover it, each
carrying the array's value on what it covers, successive values differing. -/
structure Tiles (pos1 : Nat) (v : List Nat) (out : List BedLine) : Prop where
  nonempty : ∀ l ∈ out, l.start < l.stop
  within : ∀ l ∈ out, pos1 ≤ l.start ∧ l.stop + 1 ≤ pos1 + v.length
  covered : ∀ x, pos1 ≤ x → x + 1 < pos1 + v.length → ∃ l ∈ out, l.start ≤ x ∧ x < l.stop
  values : ∀ l ∈ out, ∀ i, l.start ≤ i + pos1 → i + pos1 < l.stop → v.getD i 0 = l.value
  change : List.Chain' ValueChange out

/-! ## The coverage table under one increment -/

theorem count_empty (c p : Int) : CovMapMap.empty.count c p = 0 := rfl

theorem bump_eq (m : CovMapMap) (chr p : Int) :
    bump m chr p = fun c => if c = chr then
      some (fun q => if q = p then some (m.count chr p + 1) else (m chr).getD CovMap.empty q)
      else m c := by
  funext c
  by_cases hcc : c = chr
  · simp only [hcc, if_true]
    cases hm : m chr with
    | none =>
      simp only [bump, CovMapMap.subscript, CovMap.subscript, CovMapMap.count, hm, CovMap.empty,
        CovMapMap.set, if_true, Option.getD_none]
      congr 1
      funext q
      by_cases hq : q = p <;> simp [CovMap.set, CovMap.empty, hq]
    | some cm =>
      cases hc : cm p with
      | none =>
        simp only [bump, CovMapMap.subscript, CovMap.subscript, CovMapMap.count, hm, hc,
          CovMapMap.set, if_true, Option.getD_none, Option.getD_some]
        congr 1
        funext q
        by_cases hq : q = p <;> simp [CovMap.set, hq]
      | some n =>
        simp only [bump, CovMapMap.subscript, CovMap.subscript, CovMapMap.count, hm, hc,
          CovMapMap.set, if_true, Option.getD_some]
        congr 1
  · cases hm : m chr <;>
      simp [bump, CovMapMap.subscript, CovMapMap.set, hm, hcc]

theorem count_bump (m : CovMapMap) (chr p c q : Int) :
    (bump m chr p).count c q = m.count c q + (if c = chr ∧ q = p then 1 else 0) := by
  rw [bump_eq]
  unfold CovMapMap.count
  by_cases hc : c = chr
  · subst hc
    by_cases hq : q = p
    · subst hq
      cases hm : m c <;> simp
    · cases hm : m c <;> simp [hq, CovMap.empty]
  · simp [hc]

/-! ## The ingestion loop in closed form -/

theorem addReadLoop_done (chr e p : Int) (m : CovMapMap) (h : e < p) :
    addReadLoop chr e p m = (p, m) := by
  rw [addReadLoop, if_neg (not_le.2 h)]

theorem addReadLoop_step (chr e p : Int) (m : CovMapMap) (h : p ≤ e) :
    addReadLoop chr e p m = addReadLoop chr e (p + 1) (bump m chr p) := by
  rw [addReadLoop, if_pos h]

theorem loopTable_single (chr p : Int) (m : CovMapMap) :
    loopTable chr p p m = bump m chr p := by
  rw [bump_eq]
  funext c
  unfold loopTable
  by_cases hc : c = chr
  · simp only [hc, if_true]
    congr 1
    funext q
    by_cases hq : q = p
    · simp [hq]
    · have : ¬ (p ≤ q ∧ q ≤ p) := fun h => hq (le_antisymm h.2 h.1)
      simp [hq, this]
  · simp [hc]

theorem loopTable_bump (chr e p : Int) (m : CovMapMap) (h : p + 1 ≤ e) :
    loopTable chr e (p + 1) (bump m chr p) = loopTable chr e p m := by
  funext c
  unfold loopTable
  by_cases hc : c = chr
  · simp only [hc, if_true]
    congr 1
    funext q
    by_cases hq : q = p
    · have h1 : ¬ (p + 1 ≤ q ∧ q ≤ e) := by omega
      have h2 : p ≤ q ∧ q ≤ e := by omega
      rw [if_neg h1, if_pos h2, bump_eq]
      simp [hq]
    · by_cases hin : p + 1 ≤ q ∧ q ≤ e
      · have h2 : p ≤ q ∧ q ≤ e := by omega
        rw [if_pos hin, if_pos h2, count_bump]
        simp [hq]
      · have h2 : ¬ (p ≤ q ∧ q ≤ e) := by omega
        rw [if_neg hin, if_neg h2, bump_eq]
        simp [hq]
  · simp only [hc, if_false]
    rw [bump_eq]
    simp [hc]

theorem addReadLoop_closed_aux (chr e : Int) (n : Nat) :
    ∀ (p : Int) (m : CovMapMap), p ≤ e → (e - p).toNat = n →
      addReadLoop chr e p m = (e + 1, loopTable chr e p m) := by
  induction n with
  | zero =>
    intro p m hpe hn
    have hp : p = e := by omega
    subst hp
    rw [addReadLoop_step _ _ _ _ hpe, addReadLoop_done _ _ _ _ (by omega), loopTable_single]
  | succ n ih =>
    intro p m hpe hn
    have h1 : p + 1 ≤ e := by omega
    rw [addReadLoop_step _ _ _ _ hpe, ih (p + 1) (bump m chr p) h1 (by omega),
      loopTable_bump _ _ _ _ h1]

theorem addReadLoop_closed (chr e p : Int) (m : CovMapMap) (h : p ≤ e) :
    addReadLoop chr e p m = (e + 1, loopTable chr e p m) :=
  addReadLoop_closed_aux chr e (e - p).toNat p m h rfl

theorem count_loopTable (chr e p : Int) (m : CovMapMap) (c q : Int) :
    (loopTable chr e p m).count c q
      = m.count c q + (if c = chr ∧ p ≤ q ∧ q ≤ e then 1 else 0) := by
  unfold loopTable CovMapMap.count
  by_cases hc : c = chr
  · subst hc
    by_cases hq : p ≤ q ∧ q ≤ e
    · cases hm : m c <;> simp [hq]
    · cases hm : m c <;> simp [hq, CovMap.empty]
  · simp [hc]

/-! ## Counts after ingestion and query -/

theorem addRead_skip (s : STCoverage) (r : BamRead) (h : r.Position < 0 ∨ r.PositionEnd < 0) :
    addRead s r = s := by
  unfold addRead
  simp only [if_pos h]

theorem addRead_degenerate (s : STCoverage) (r : BamRead) (h : r.PositionEnd < r.Position) :
    addRead s r = s := by
  unfold addRead
  by_cases hs : r.Position < 0 ∨ r.PositionEnd < 0
  · simp only [if_pos hs]
  · simp only [if_neg hs, addReadLoop_done _ _ _ _ h]

theorem addRead_valid (s : STCoverage) (r : BamRead) (h0 : 0 ≤ r.Position)
    (h : r.Position ≤ r.PositionEnd) :
    addRead s r = { s with m_map := loopTable r.ChrID r.PositionEnd r.Position s.m_map } := by
  unfold addRead
  have hs : ¬ (r.Position < 0 ∨ r.PositionEnd < 0) := by omega
  simp only [if_neg hs, addReadLoop_closed _ _ _ _ h]

theorem count_addRead (s : STCoverage) (r : BamRead) (c p : Int) :
    (addRead s r).m_map.count c p = s.m_map.count c p + (if covers c p r then 1 else 0) := by
  by_cases hs : r.Position < 0 ∨ r.PositionEnd < 0
  · rw [addRead_skip s r hs]
    have : covers c p r = false := by
      simp only [covers, decide_eq_false_iff_not]
      omega
    simp [this]
  · by_cases hd : r.PositionEnd < r.Position
    · rw [addRead_degenerate s r hd]
      have : covers c p r = false := by
        simp only [covers, decide_eq_false_iff_not]
        omega
      simp [this]
    · rw [addRead_valid s r (by omega) (by omega)]
      simp only [count_loopTable, covers]
      congr 1
      by_cases hc : c = r.ChrID
      · subst hc
        have h1 : 0 ≤ r.Position := by omega
        have h2 : 0 ≤ r.PositionEnd := by omega
        simp [h1, h2]
      · have hc2 : ¬ r.ChrID = c := fun h => hc h.symm
        simp [hc, hc2]

theorem count_addReads (rs : List BamRead) :
    ∀ (s : STCoverage) (c p : Int),
      (addReads s rs).m_map.count c p = s.m_map.count c p + rs.countP (covers c p) := by
  induction rs with
  | nil => intro s c p; simp [addReads]
  | cons r rs ih =>
    intro s c p
    have h := ih (addRead s r) c p
    simp only [addReads, List.foldl_cons] at h ⊢
    rw [h, count_addRead, List.countP_cons]
    omega

theorem getCoverageAtPosition_fst (s : STCoverage) (c p : Int) :
    (getCoverageAtPosition s c p).1 = s.m_map.count c p := by
  unfold getCoverageAtPosition CovMapMap.count
  cases hm : s.m_map c with
  | none => rfl
  | some cm =>
    cases hc : cm p <;> simp [CovMap.subscript, hc]

theorem getCoverageAtPosition_count (s : STCoverage) (c p c2 p2 : Int) :
    (getCoverageAtPosition s c p).2.m_map.count c2 p2 = s.m_map.count c2 p2 := by
  unfold getCoverageAtPosition
  cases hm : s.m_map c with
  | none => rfl
  | some cm =>
    cases hc : cm p with
    | some n =>
      simp only [CovMap.subscript, hc, CovMapMap.count, CovMapMap.set]
      by_cases h : c2 = c
      · subst h; simp [hm]
      · simp [h]
    | none =>
      simp only [CovMap.subscript, hc, CovMapMap.count, CovMapMap.set, CovMap.set]
      by_cases h : c2 = c
      · subst h
        by_cases hp : p2 = p
        · subst hp; simp [hm, hc, CovMap.set]
        · simp [hm, hp, CovMap.set]
      · simp [h]

theorem count_run (s : STCoverage) (call : Call) (c p : Int) :
    (call.run s).m_map.count c p = s.m_map.count c p + (if call.covers c p then 1 else 0) := by
  cases call with
  | ingest r => simp only [Call.run, Call.covers, count_addRead]
  | query chr pos => simp [Call.run, Call.covers, getCoverageAtPosition_count]

theorem count_runCalls (cs : List Call) :
    ∀ (s : STCoverage) (c p : Int),
      (runCalls s cs).m_map.count c p = s.m_map.count c p + cs.countP (Call.covers c p) := by
  induction cs with
  | nil => intro s c p; simp [runCalls]
  | cons call cs ih =>
    intro s c p
    have h := ih (call.run s) c p
    simp only [runCalls, List.foldl_cons] at h ⊢
    rw [h, count_run, List.countP_cons]
    omega

/-! ## Invariant of the emitter's scan -/

theorem scanUpTo_succ (name : String) (pos1 : Nat) (v : List Nat) (k : Nat) :
    scanUpTo name pos1 v (k + 1) = scanStep name pos1 v (scanUpTo name pos1 v k) k := by
  simp [scanUpTo, List.range_succ, List.foldl_append]

theorem scanUpTo_one (name : String) (pos1 : Nat) (v : List Nat) :
    scanUpTo name pos1 v 1 = ⟨[], 0, v.getD 0 0⟩ := by
  rw [scanUpTo_succ]
  simp [scanUpTo, scanStep]

theorem scanInv_step (name : String) (pos1 : Nat) (v : List Nat) (k : Nat) (st : ScanState)
    (h : ScanInv pos1 k st) : ScanInv pos1 (k + 1) (scanStep name pos1 v st k) := by
  unfold scanStep
  split
  · refine ⟨Nat.lt_succ_self k, ?_, ?_, ?_, ?_⟩
    · refine List.chain'_append.2 ⟨h.chain, List.chain'_singleton _, ?_⟩
      intro x hx y hy
      simp only [List.head?_cons, Option.mem_def, Option.some.injEq] at hy
      subst hy
      exact ⟨(h.last x hx).1, (h.last x hx).2⟩
    · intro x hx
      simp only [List.getLast?_append, List.getLast?_singleton, Option.or, Option.mem_def,
        Option.some.injEq] at hx
      subst hx
      have := h.start_lt
      exact ⟨by simp only; omega, rfl⟩
    · refine List.pairwise_append.2 ⟨h.pairwise, List.pairwise_singleton _ _, ?_⟩
      intro a ha b hb
      simp only [List.mem_singleton] at hb
      subst hb
      exact h.stop_le a ha
    · intro l hl
      simp only [List.mem_append, List.mem_singleton] at hl
      have := h.start_lt
      rcases hl with hl | hl
      · have := h.stop_le l hl
        simp only
        omega
      · subst hl
        exact le_refl _
  · exact ⟨Nat.lt_succ_of_lt h.start_lt, h.chain, h.last, h.pairwise, h.stop_le⟩

theorem scanInv_scanUpTo (name : String) (pos1 : Nat) (v : List Nat) (k : Nat) :
    ScanInv pos1 (k + 1) (scanUpTo name pos1 v (k + 1)) := by
  induction k with
  | zero =>
    rw [scanUpTo_one]
    exact ⟨Nat.zero_lt_one, List.chain'_nil, by simp, List.Pairwise.nil, by simp⟩
  | succ k ih =>
    rw [scanUpTo_succ]
    exact scanInv_step name pos1 v (k + 1) _ ih

theorem scanInv_scan (name : String) (pos1 : Nat) (v : List Nat) (hv : v ≠ []) :
    ScanInv pos1 v.length (scan name pos1 v) := by
  obtain ⟨k, hk⟩ : ∃ k, v.length = k + 1 :=
    Nat.exists_eq_succ_of_ne_zero (fun h => hv (List.length_eq_zero.1 h))
  unfold scan
  rw [hk]
  exact scanInv_scanUpTo name pos1 v k

theorem ToBedgraph_guard (s : STCoverage) (name : String)
    (h : s.m_gr.chr = -1 ∨ s.v.length = 0) : ToBedgraph s name = [] := by
  unfold ToBedgraph
  rw [if_pos h]

theorem ToBedgraph_chain_pairwise (s : STCoverage) (name : String) :
    List.Chain' Adjacent (ToBedgraph s name) ∧ List.Pairwise Before (ToBedgraph s name) := by
  by_cases hg : s.m_gr.chr = -1 ∨ s.v.length = 0
  · rw [ToBedgraph_guard s name hg]
    exact ⟨List.chain'_nil, List.Pairwise.nil⟩
  · have hv : s.v ≠ [] := fun h => hg (Or.inr (by rw [h]; rfl))
    have inv := scanInv_scan name s.m_gr.pos1 s.v hv
    unfold ToBedgraph
    rw [if_neg hg]
    simp only
    split
    · rename_i hne
      have hlt := inv.start_lt
      constructor
      · refine List.chain'_append.2 ⟨inv.chain, List.chain'_singleton _, ?_⟩
        intro x hx y hy
        simp only [List.head?_cons, Option.mem_def, Option.some.injEq] at hy
        subst hy
        exact ⟨(inv.last x hx).1, (inv.last x hx).2⟩
      · refine List.pairwise_append.2 ⟨inv.pairwise, List.pairwise_singleton _ _, ?_⟩
        intro a ha b hb
        simp only [List.mem_singleton] at hb
        subst hb
        exact inv.stop_le a ha
    · exact ⟨inv.chain, inv.pairwise⟩

theorem getD_replicate_lt (w x k : Nat) (hk : k < w) : (List.replicate w x).getD k 0 = x := by
  simp [hk]

theorem scanUpTo_replicate (name : String) (pos1 w x : Nat) (k : Nat) (hk : k ≤ w) :
    scanUpTo name pos1 (List.replicate w x) k = ⟨[], 0, (List.replicate w x).getD 0 0⟩ := by
  induction k with
  | zero => rfl
  | succ k ih =>
    have hk2 : k < w := hk
    have h0 : 0 < w := Nat.lt_of_le_of_lt (Nat.zero_le k) hk2
    rw [scanUpTo_succ, ih (Nat.le_of_lt hk2)]
    unfold scanStep
    simp only [getD_replicate_lt w x k hk2, getD_replicate_lt w x 0 h0, ne_eq, not_true_eq_false,
      if_false]

/-- A dense array of `w ≥ 2` equal slots gives one line, which stops at
`w + pos1 - 1`. -/
theorem ToBedgraph_replicate (chr : Int) (pos1 pos2 : Nat) (m : CovMapMap) (name : String)
    (w x : Nat) (hchr : chr ≠ -1) (hw : 2 ≤ w) :
    ToBedgraph ⟨⟨chr, pos1, pos2⟩, List.replicate w x, m⟩ name
      = [⟨name, pos1, w + pos1 - 1, x⟩] := by
  have h0 : 0 < w := by omega
  have hw0 : w ≠ 0 := by omega
  have hw1 : ¬ 1 = w := by omega
  simp [ToBedgraph, scan, scanUpTo_replicate name pos1 w x w (le_refl w), hchr, hw0, hw1, h0]

/-! ## Ingestion and point query: the claims -/

/-- C5. A span with a negative position or a negative end position leaves the
accumulator as it was: `addRead` returns the very same state, so every count is
unchanged and no chromosome or position key is created. -/
theorem addRead_invalid_noop (s : STCoverage) (r : BamRead)
    (h : r.Position < 0 ∨ r.PositionEnd < 0) : addRead s r = s :=
  addRead_skip s r h

/-- Witness for C5: the span with position `-1` and end position `10`, ingested
after a valid span. -/
theorem addRead_invalid_noop_witness :
    ((-1 : Int) < 0 ∨ (10 : Int) < 0)
    ∧ addRead (addRead (STCoverage.new ⟨1, 0, 10⟩) ⟨1, 3, 5⟩) ⟨1, -1, 10⟩
        = addRead (STCoverage.new ⟨1, 0, 10⟩) ⟨1, 3, 5⟩ :=
  ⟨by decide, addRead_invalid_noop _ ⟨1, -1, 10⟩ (by decide)⟩

/-! ## Interval emitter: the claims -/

/-- C7. The lines emitted for `[0,0,3,3,3,5,0]` (chromosome id 1, start 100),
read as half-open intervals, give back `[0,0,3,3,3,5]`, which is not the array;
coordinate 106 lies in no emitted interval. For the one-slot array `[5]`
nothing is emitted at all. -/
theorem ToBedgraph_round_trip_fails (name : String) :
    decode (ToBedgraph ⟨⟨1, 100, 107⟩, [0, 0, 3, 3, 3, 5, 0], CovMapMap.empty⟩ name)
      = [0, 0, 3, 3, 3, 5]
    ∧ decode (ToBedgraph ⟨⟨1, 100, 107⟩, [0, 0, 3, 3, 3, 5, 0], CovMapMap.empty⟩ name)
      ≠ [0, 0, 3, 3, 3, 5, 0]
    ∧ (∀ l ∈ ToBedgraph ⟨⟨1, 100, 107⟩, [0, 0, 3, 3, 3, 5, 0], CovMapMap.empty⟩ name,
        ¬ (l.start ≤ 106 ∧ 106 < l.stop))
    ∧ decode (ToBedgraph ⟨⟨1, 100, 101⟩, [5], CovMapMap.empty⟩ name) = [] := by
  have h : ToBedgraph ⟨⟨1, 100, 107⟩, [0, 0, 3, 3, 3, 5, 0], CovMapMap.empty⟩ name
      = [⟨name, 100, 102, 0⟩, ⟨name, 102, 105, 3⟩, ⟨name, 105, 106, 5⟩] := rfl
  rw [h]
  refine ⟨rfl, ?_, ?_, rfl⟩
  · rw [show decode [⟨name, 100, 102, 0⟩, ⟨name, 102, 105, 3⟩, ⟨name, 105, 106, 5⟩]
        = [0, 0, 3, 3, 3, 5] from rfl]
    decide
  intro l hl
  simp only [List.mem_cons, List.mem_singleton, List.not_mem_nil, or_false] at hl
  rcases hl with hl | hl | hl <;> subst hl <;> simp

/-- C8. On a dense array of 50 slots all equal to 7 (chromosome id 1, start
100), `ToBedgraph` emits the single line `(100,149,7)`: its end is
`start + 50 - 1`, not `start + 50`. On a one-slot array it emits nothing. -/
theorem ToBedgraph_single_value_short (name : String) :
    ToBedgraph ⟨⟨1, 100, 150⟩, List.replicate 50 7, CovMapMap.empty⟩ name
      = [⟨name, 100, 149, 7⟩]
    ∧ ToBedgraph ⟨⟨1, 100, 101⟩, List.replicate 1 7, CovMapMap.empty⟩ name = [] := by
  constructor
  · exact ToBedgraph_replicate 1 100 150 CovMapMap.empty name 50 7 (by decide) (by decide)
  · rfl

/-- C9. `ToBedgraph` emits no line when the region's chromosome id is the
unset value `-1`, whatever the dense array holds, and when the dense array is
empty, whatever the chromosome id is. `ToBedgraph` is a total function: it
returns in both cases. -/
theorem ToBedgraph_empty_region (s : STCoverage) (name : String)
    (h : s.m_gr.chr = -1 ∨ s.v.length = 0) : ToBedgraph s name = [] :=
  ToBedgraph_guard s name h

/-- Witness for C9: an unset chromosome id over a non-empty array, and an empty
array under a set chromosome id. -/
theorem ToBedgraph_empty_region_witness :
    ToBedgraph ⟨⟨-1, 100, 103⟩, [4, 4, 9], CovMapMap.empty⟩ "chrom" = []
    ∧ ToBedgraph ⟨⟨1, 100, 100⟩, [], CovMapMap.empty⟩ "chrom" = [] :=
  ⟨ToBedgraph_empty_region ⟨⟨-1, 100, 103⟩, [4, 4, 9], CovMapMap.empty⟩ "chrom" (Or.inl rfl),
    ToBedgraph_empty_region ⟨⟨1, 100, 100⟩, [], CovMapMap.empty⟩ "chrom" (Or.inr rfl)⟩

/-- C10. For every dense array and region, the lines emitted by `ToBedgraph`
have strictly ascending start coordinates and each line's end coordinate is the
start coordinate of the line emitted next; any earlier line ends no later than
any later line starts, so read as half-open intervals they do not overlap. -/
theorem ToBedgraph_ascending_contiguous (s : STCoverage) (name : String) :
    List.Chain' (fun a b => a.start < b.start ∧ a.stop = b.start) (ToBedgraph s name)
    ∧ List.Pairwise (fun a b => a.stop ≤ b.start) (ToBedgraph s name) :=
  ToBedgraph_chain_pairwise s name

/-! ## What ingestion and query leave alone -/

theorem addRead_v (s : STCoverage) (r : BamRead) : (addRead s r).v = s.v := by
  unfold addRead
  simp only
  split <;> rfl

theorem addRead_m_gr (s : STCoverage) (r : BamRead) : (addRead s r).m_gr = s.m_gr := by
  unfold addRead
  simp only
  split <;> rfl

theorem addReads_v_m_gr (rs : List BamRead) :
    ∀ s : STCoverage, (addReads s rs).v = s.v ∧ (addReads s rs).m_gr = s.m_gr := by
  induction rs with
  | nil => intro s; exact ⟨rfl, rfl⟩
  | cons r rs ih =>
    intro s
    have h := ih (addRead s r)
    simp only [addReads, List.foldl_cons] at h ⊢
    rw [h.1, h.2, addRead_v, addRead_m_gr]
    exact ⟨rfl, rfl⟩

theorem ToBedgraph_congr (s t : STCoverage) (name : String) (hv : s.v = t.v)
    (hg : s.m_gr = t.m_gr) : ToBedgraph s name = ToBedgraph t name := by
  unfold ToBedgraph
  rw [hv, hg]

theorem addRead_key (s : STCoverage) (r : BamRead) (c : Int) :
    ((addRead s r).m_map c).isSome = ((s.m_map c).isSome || ingests c r) := by
  by_cases hs : r.Position < 0 ∨ r.PositionEnd < 0
  · rw [addRead_skip s r hs]
    have : ingests c r = false := by
      simp only [ingests, decide_eq_false_iff_not]
      omega
    simp [this]
  · by_cases hd : r.PositionEnd < r.Position
    · rw [addRead_degenerate s r hd]
      have : ingests c r = false := by
        simp only [ingests, decide_eq_false_iff_not]
        omega
      simp [this]
    · rw [addRead_valid s r (by omega) (by omega)]
      by_cases hc : c = r.ChrID
      · subst hc
        have : ingests r.ChrID r = true := by
          simp only [ingests, decide_eq_true_eq, true_and]
          omega
        simp [loopTable, this]
      · have : ingests c r = false := by
          simp only [ingests, decide_eq_false_iff_not]
          intro h
          exact hc h.1.symm
        simp [loopTable, hc, this]

theorem getCoverageAtPosition_key (s : STCoverage) (chr pos c : Int) :
    ((getCoverageAtPosition s chr pos).2.m_map c).isSome = (s.m_map c).isSome := by
  unfold getCoverageAtPosition
  cases hm : s.m_map chr with
  | none => rfl
  | some cm =>
    simp only [CovMapMap.set]
    by_cases hc : c = chr
    · subst hc; simp [hm]
    · simp [hc]

theorem runCalls_key (cs : List Call) :
    ∀ (s : STCoverage) (c : Int),
      ((runCalls s cs).m_map c).isSome = true ↔
        ((s.m_map c).isSome = true ∨ ∃ r, Call.ingest r ∈ cs ∧ ingests c r = true) := by
  induction cs with
  | nil => intro s c; simp [runCalls]
  | cons call cs ih =>
    intro s c
    have h := ih (call.run s) c
    simp only [runCalls, List.foldl_cons] at h ⊢
    rw [h]
    cases call with
    | ingest r0 =>
      simp only [Call.run, addRead_key, Bool.or_eq_true, List.mem_cons, Call.ingest.injEq]
      constructor
      · rintro ((h1 | h1) | ⟨r, hr, hi⟩)
        · exact Or.inl h1
        · exact Or.inr ⟨r0, Or.inl rfl, h1⟩
        · exact Or.inr ⟨r, Or.inr hr, hi⟩
      · rintro (h1 | ⟨r, hr | hr, hi⟩)
        · exact Or.inl (Or.inl h1)
        · subst hr; exact Or.inl (Or.inr hi)
        · exact Or.inr ⟨r, hr, hi⟩
    | query chr pos =>
      simp only [Call.run, getCoverageAtPosition_key, List.mem_cons, reduceCtorEq, false_or]

theorem query_inserts_entry (s : STCoverage) (c p : Int) (cm : CovMap)
    (hm : s.m_map c = some cm) (hp : cm p = none) :
    s.m_map.entry c p = none ∧ (getCoverageAtPosition s c p).2.m_map.entry c p = some 0 := by
  constructor
  · simp [CovMapMap.entry, hm, hp]
  · simp [getCoverageAtPosition, hm, CovMap.subscript, hp, CovMapMap.entry, CovMapMap.set,
      CovMap.set]

/-! ## Ingestion and point query: further claims -/

/-- C12. The point query is not read-only. In the state reached by ingesting
the span `[3, 5]` on chromosome 1 into a new accumulator, position 9 is not a
key of the counter of chromosome 1; the query at `(1, 9)` returns 0 and leaves
position 9 stored there with count 0, so the coverage table after the call is
not the table before it. -/
theorem getCoverageAtPosition_inserts_key :
    (addRead (STCoverage.new ⟨1, 0, 10⟩) ⟨1, 3, 5⟩).m_map.entry 1 9 = none
    ∧ (getCoverageAtPosition (addRead (STCoverage.new ⟨1, 0, 10⟩) ⟨1, 3, 5⟩) 1 9).1 = 0
    ∧ (getCoverageAtPosition (addRead (STCoverage.new ⟨1, 0, 10⟩) ⟨1, 3, 5⟩) 1 9).2.m_map.entry 1 9
        = some 0
    ∧ (getCoverageAtPosition (addRead (STCoverage.new ⟨1, 0, 10⟩) ⟨1, 3, 5⟩) 1 9).2
        ≠ addRead (STCoverage.new ⟨1, 0, 10⟩) ⟨1, 3, 5⟩ := by
  have hs : addRead (STCoverage.new ⟨1, 0, 10⟩) ⟨1, 3, 5⟩
      = { STCoverage.new ⟨1, 0, 10⟩ with m_map := loopTable 1 5 3 CovMapMap.empty } :=
    addRead_valid _ ⟨1, 3, 5⟩ (by decide) (by decide)
  have hm : (addRead (STCoverage.new ⟨1, 0, 10⟩) ⟨1, 3, 5⟩).m_map 1
      = some (fun q => if 3 ≤ q ∧ q ≤ 5 then some (CovMapMap.empty.count 1 q + 1)
          else (CovMapMap.empty 1).getD CovMap.empty q) := by
    rw [hs]
    simp [loopTable]
  have h := query_inserts_entry _ 1 9 _ hm (by simp [CovMapMap.empty, CovMap.empty])
  refine ⟨h.1, ?_, h.2, ?_⟩
  · rw [getCoverageAtPosition_fst, count_addRead]
    simp [STCoverage.new, count_empty, covers]
  · intro heq
    have h2 := h.2
    rw [heq, h.1] at h2
    exact Option.noConfusion h2

/-- C14. Ingestion never writes the dense vector or the region descriptor:
after any sequence of `addRead` calls on a newly constructed accumulator the
dense vector is still `region.width` slots, all 0, the region descriptor is
the one given to the constructor, and `ToBedgraph` emits the same lines as on a
newly constructed accumulator over the same region. -/
theorem addReads_keeps_dense_vector (gr : GenomicRegion) (rs : List BamRead) (name : String) :
    (addReads (STCoverage.new gr) rs).v = List.replicate gr.width 0
    ∧ (addReads (STCoverage.new gr) rs).v.length = gr.width
    ∧ (∀ x ∈ (addReads (STCoverage.new gr) rs).v, x = 0)
    ∧ (addReads (STCoverage.new gr) rs).m_gr = gr
    ∧ ToBedgraph (addReads (STCoverage.new gr) rs) name = ToBedgraph (STCoverage.new gr) name := by
  have h := addReads_v_m_gr rs (STCoverage.new gr)
  refine ⟨h.1, ?_, ?_, h.2, ToBedgraph_congr _ _ name h.1 h.2⟩
  · rw [h.1]
    simp [STCoverage.new]
  · rw [h.1]
    intro x hx
    simp only [STCoverage.new, List.mem_replicate] at hx
    exact hx.2

/-- C15. A degenerate span, `0 ≤ end_position < position`, makes `addRead`
perform no increment: it returns the very same state, so every count is
unchanged and no key, for the span's chromosome id or any other, is created. -/
theorem addRead_degenerate_noop (s : STCoverage) (r : BamRead)
    (h0 : 0 ≤ r.PositionEnd) (h : r.PositionEnd < r.Position) :
    addRead s r = s ∧ (addRead s r).m_map r.ChrID = s.m_map r.ChrID := by
  have := h0
  rw [addRead_degenerate s r h]
  exact ⟨rfl, rfl⟩

/-- Witness for C15: the span with position 6 and end position 2 on a
chromosome never seen; chromosome 1 is still not a key afterwards. -/
theorem addRead_degenerate_noop_witness :
    addRead (STCoverage.new ⟨1, 0, 10⟩) ⟨1, 6, 2⟩ = STCoverage.new ⟨1, 0, 10⟩
    ∧ (addRead (STCoverage.new ⟨1, 0, 10⟩) ⟨1, 6, 2⟩).m_map 1
        = (STCoverage.new ⟨1, 0, 10⟩).m_map 1 :=
  addRead_degenerate_noop (STCoverage.new ⟨1, 0, 10⟩) ⟨1, 6, 2⟩ (by decide) (by decide)

/-- C16. In the state reached from a newly constructed accumulator by any
sequence of `addRead` and `getCoverageAtPosition` calls, chromosome id `c` is a
key of the coverage table exactly when one of the `addRead` calls ingested a
span on `c` with `0 ≤ position ≤ end_position`. A point query never changes
which chromosome ids are keys, and a skipped span (negative position or end
position, or end position below position) leaves the state as it was. -/
theorem table_key_iff_valid_ingest (gr : GenomicRegion) (cs : List Call) (c : Int) :
    (((runCalls (STCoverage.new gr) cs).m_map c).isSome = true ↔
        ∃ r, Call.ingest r ∈ cs ∧ r.ChrID = c ∧ 0 ≤ r.Position ∧ r.Position ≤ r.PositionEnd)
    ∧ (∀ (s : STCoverage) (chr pos : Int),
        ((getCoverageAtPosition s chr pos).2.m_map c).isSome = (s.m_map c).isSome)
    ∧ (∀ (s : STCoverage) (r : BamRead),
        (r.Position < 0 ∨ r.PositionEnd < 0 ∨ r.PositionEnd < r.Position) → addRead s r = s) := by
  refine ⟨?_, fun s chr pos => getCoverageAtPosition_key s chr pos c, ?_⟩
  · rw [runCalls_key]
    simp [STCoverage.new, CovMapMap.empty, ingests]
  · intro s r h
    by_cases hs : r.Position < 0 ∨ r.PositionEnd < 0
    · exact addRead_skip s r hs
    · exact addRead_degenerate s r (by omega)

/-! ## Diagnostics and the machine counter -/

theorem addReadLoop_fst (chr e p : Int) (m : CovMapMap) (h : p ≤ e) :
    (addReadLoop chr e p m).1 = e + 1 := by
  rw [addReadLoop_closed _ _ _ _ h]

theorem wrapInt_le (x : Int) : wrapInt x ≤ INT_MAX := by
  unfold wrapInt INT_MAX
  omega

theorem wrapInt_eq (x : Int) (h1 : INT_MIN ≤ x) (h2 : x ≤ INT_MAX) : wrapInt x = x := by
  unfold wrapInt
  unfold INT_MIN at h1
  unfold INT_MAX at h2
  omega

theorem addReadLoopWrap_max (chr : Int) (fuel : Nat) :
    ∀ (p : Int) (m : CovMapMap), p ≤ INT_MAX → addReadLoopWrap chr INT_MAX fuel p m = none := by
  induction fuel with
  | zero => intro p m _; rfl
  | succ fuel ih =>
    intro p m hp
    rw [addReadLoopWrap, if_pos hp]
    exact ih _ _ (wrapInt_le _)

/-- Below the largest `int` the wrapping counter and the exact counter agree:
with one test more than the number of positions left, the wrapping loop exits
with the result of `addReadLoop`. -/
theorem addReadLoopWrap_eq (chr e : Int) (he : e < INT_MAX) (n : Nat) :
    ∀ (p : Int) (m : CovMapMap), INT_MIN ≤ p → (e + 1 - p).toNat = n →
      addReadLoopWrap chr e (n + 1) p m = some (addReadLoop chr e p m) := by
  induction n with
  | zero =>
    intro p m _ hn
    have hlt : e < p := by omega
    rw [addReadLoopWrap, if_neg (not_le.2 hlt), addReadLoop_done _ _ _ _ hlt]
  | succ n ih =>
    intro p m hp hn
    have hle : p ≤ e := by omega
    have hw : wrapInt (p + 1) = p + 1 := by
      apply wrapInt_eq
      · omega
      · omega
    rw [addReadLoopWrap, if_pos hle, hw, addReadLoop_step _ _ _ _ hle]
    exact ih (p + 1) (bump m chr p) (by omega) (by omega)

/-! ## Runs of the dense array and the emitted lines -/

theorem scanRuns_step (name : String) (pos1 : Nat) (v : List Nat) (k : Nat) (st : ScanState)
    (h : ScanRuns pos1 v k st) : ScanRuns pos1 v (k + 1) (scanStep name pos1 v st k) := by
  have hlt := h.start_lt
  unfold scanStep
  split
  · rename_i hne
    refine ⟨Nat.lt_succ_self k, ?_, ?_, ?_, ?_, ?_, ?_, ?_⟩
    · intro i h1 h2
      have hi : i = k := by
        simp only at h1
        omega
      rw [hi]
    · intro l hl
      simp only [List.mem_append, List.mem_singleton] at hl
      rcases hl with hl | hl
      · exact h.nonempty l hl
      · subst hl
        simp only
        omega
    · intro l hl
      simp only [List.mem_append, List.mem_singleton] at hl
      rcases hl with hl | hl
      · have := h.within l hl
        simp only
        omega
      · subst hl
        simp only
        omega
    · intro x hx1 hx2
      simp only at hx2
      by_cases hx : x < st.curr_start + pos1
      · obtain ⟨l, hl, hl2⟩ := h.covered x hx1 hx
        exact ⟨l, List.mem_append_left _ hl, hl2⟩
      · refine ⟨⟨name, st.curr_start + pos1, k + pos1, st.curr_val⟩,
          List.mem_append_right _ (List.mem_singleton_self _), ?_⟩
        simp only
        omega
    · intro l hl i h1 h2
      simp only [List.mem_append, List.mem_singleton] at hl
      rcases hl with hl | hl
      · exact h.values l hl i h1 h2
      · subst hl
        simp only at h1 h2 ⊢
        exact h.run i (by omega) (by omega)
    · refine List.chain'_append.2 ⟨h.change, List.chain'_singleton _, ?_⟩
      intro x hx y hy
      simp only [List.head?_cons, Option.mem_def, Option.some.injEq] at hy
      subst hy
      exact h.last_change x hx
    · intro x hx
      simp only [List.getLast?_append, List.getLast?_singleton, Option.or, Option.mem_def,
        Option.some.injEq] at hx
      subst hx
      exact fun heq => hne heq.symm
  · rename_i heq
    have heq2 : v.getD k 0 = st.curr_val := not_not.1 heq
    refine ⟨Nat.lt_succ_of_lt hlt, ?_, h.nonempty, h.within, h.covered, h.values, h.change,
      h.last_change⟩
    intro i h1 h2
    by_cases hi : i = k
    · rw [hi]; exact heq2
    · exact h.run i h1 (by omega)

theorem scanRuns_scanUpTo (name : String) (pos1 : Nat) (v : List Nat) (k : Nat) :
    ScanRuns pos1 v (k + 1) (scanUpTo name pos1 v (k + 1)) := by
  induction k with
  | zero =>
    rw [scanUpTo_one]
    refine ⟨Nat.zero_lt_one, ?_, by simp, by simp, ?_, by simp, List.chain'_nil, by simp⟩
    · intro i h1 h2
      have hi : i = 0 := by omega
      rw [hi]
    · intro x h1 h2
      simp only at h2
      omega
  | succ k ih =>
    rw [scanUpTo_succ]
    exact scanRuns_step name pos1 v (k + 1) _ ih

theorem scanRuns_scan (name : String) (pos1 : Nat) (v : List Nat) (hv : v ≠ []) :
    ScanRuns pos1 v v.length (scan name pos1 v) := by
  obtain ⟨k, hk⟩ : ∃ k, v.length = k + 1 :=
    Nat.exists_eq_succ_of_ne_zero (fun h => hv (List.length_eq_zero.1 h))
  unfold scan
  rw [hk]
  exact scanRuns_scanUpTo name pos1 v k

theorem ToBedgraph_tiles (s : STCoverage) (name : String)
    (hg : ¬ (s.m_gr.chr = -1 ∨ s.v.length = 0)) :
    Tiles s.m_gr.pos1 s.v (ToBedgraph s name) := by
  have hv : s.v ≠ [] := fun h => hg (Or.inr (by rw [h]; rfl))
  have inv := scanRuns_scan name s.m_gr.pos1 s.v hv
  have hlt := inv.start_lt
  unfold ToBedgraph
  rw [if_neg hg]
  simp only
  split
  · rename_i hne
    refine ⟨?_, ?_, ?_, ?_, ?_⟩
    · intro l hl
      simp only [List.mem_append, List.mem_singleton] at hl
      rcases hl with hl | hl
      · exact inv.nonempty l hl
      · subst hl
        simp only
        omega
    · intro l hl
      simp only [List.mem_append, List.mem_singleton] at hl
      rcases hl with hl | hl
      · have := inv.within l hl
        omega
      · subst hl
        simp only
        omega
    · intro x hx1 hx2
      by_cases hx : x < (scan name s.m_gr.pos1 s.v).curr_start + s.m_gr.pos1
      · obtain ⟨l, hl, hl2⟩ := inv.covered x hx1 hx
        exact ⟨l, List.mem_append_left _ hl, hl2⟩
      · refine ⟨_, List.mem_append_right _ (List.mem_singleton_self _), ?_⟩
        simp only
        omega
    · intro l hl i h1 h2
      simp only [List.mem_append, List.mem_singleton] at hl
      rcases hl with hl | hl
      · exact inv.values l hl i h1 h2
      · subst hl
        simp only at h1 h2 ⊢
        exact inv.run i (by omega) (by omega)
    · refine List.chain'_append.2 ⟨inv.change, List.chain'_singleton _, ?_⟩
      intro x hx y hy
      simp only [List.head?_cons, Option.mem_def, Option.some.injEq] at hy
      subst hy
      exact inv.last_change x hx
  · rename_i heq
    have heq2 : (scan name s.m_gr.pos1 s.v).curr_start + 1 = s.v.length := not_not.1 heq
    refine ⟨inv.nonempty, ?_, ?_, inv.values, inv.change⟩
    · intro l hl
      have := inv.within l hl
      omega
    · intro x hx1 hx2
      exact inv.covered x hx1 (by omega)

/-! ## Diagnostics, the machine counter and the emitter: further claims -/

/-- C11. For every dense array and region, no two lines emitted consecutively
by `ToBedgraph`, the final flushed line and the one before it included, carry
the same value. -/
theorem ToBedgraph_maximal_runs (s : STCoverage) (name : String) :
    List.Chain' (fun a b => a.value ≠ b.value) (ToBedgraph s name) := by
  by_cases hg : s.m_gr.chr = -1 ∨ s.v.length = 0
  · rw [ToBedgraph_guard s name hg]
    exact List.chain'_nil
  · exact (ToBedgraph_tiles s name hg).change

/-- C17. For the span whose position and end position are both the largest
`int`, the loop of `addRead` makes its one increment and then `++p` takes the
counter to `INT_MAX + 1`, outside the range of `int`; with a counter that wraps
instead, the loop condition never fails and the loop has not exited after any
number of tests. -/
theorem addRead_loop_counter_overflow :
    (addReadLoop 1 INT_MAX INT_MAX CovMapMap.empty).1 = INT_MAX + 1
    ∧ INT_MAX < (addReadLoop 1 INT_MAX INT_MAX CovMapMap.empty).1
    ∧ ∀ fuel : Nat, addReadLoopWrap 1 INT_MAX fuel INT_MAX CovMapMap.empty = none := by
  have h := addReadLoop_fst 1 INT_MAX INT_MAX CovMapMap.empty (le_refl _)
  refine ⟨h, ?_, fun fuel => addReadLoopWrap_max 1 fuel INT_MAX CovMapMap.empty (le_refl _)⟩
  rw [h]
  omega

/-- C18. For a non-empty dense array of length `n` and a region with a set
chromosome id, the lines emitted by `ToBedgraph`, read as half-open intervals,
are non-empty, pairwise disjoint and cover exactly the coordinates of
`[pos1, pos1 + n - 1)`; each line's value is the array's value at every index
the line covers. Hence no line covers the last slot, and an array of length 1
gives no line. -/
theorem ToBedgraph_tiles_all_but_last (s : STCoverage) (name : String)
    (hchr : s.m_gr.chr ≠ -1) (hv : s.v ≠ []) :
    (∀ l ∈ ToBedgraph s name, l.start < l.stop)
    ∧ (∀ x, (∃ l ∈ ToBedgraph s name, l.start ≤ x ∧ x < l.stop)
          ↔ (s.m_gr.pos1 ≤ x ∧ x < s.m_gr.pos1 + s.v.length - 1))
    ∧ List.Pairwise (fun a b => a.stop ≤ b.start) (ToBedgraph s name)
    ∧ (∀ l ∈ ToBedgraph s name, ∀ i, l.start ≤ s.m_gr.pos1 + i → s.m_gr.pos1 + i < l.stop →
          s.v[i]? = some l.value)
    ∧ (∀ l ∈ ToBedgraph s name,
          ¬ (l.start ≤ s.m_gr.pos1 + (s.v.length - 1) ∧ s.m_gr.pos1 + (s.v.length - 1) < l.stop))
    ∧ (s.v.length = 1 → ToBedgraph s name = []) := by
  have hlen : s.v.length ≠ 0 := fun h => hv (List.length_eq_zero.1 h)
  have hg : ¬ (s.m_gr.chr = -1 ∨ s.v.length = 0) := by
    intro h
    rcases h with h | h
    · exact hchr h
    · exact hlen h
  have t := ToBedgraph_tiles s name hg
  refine ⟨t.nonempty, ?_, (ToBedgraph_chain_pairwise s name).2, ?_, ?_, ?_⟩
  · intro x
    constructor
    · rintro ⟨l, hl, h1, h2⟩
      have := t.within l hl
      omega
    · rintro ⟨h1, h2⟩
      exact t.covered x h1 (by omega)
  · intro l hl i h1 h2
    have hw := t.within l hl
    have hi : i < s.v.length := by omega
    have hval := t.values l hl i (by omega) (by omega)
    rw [List.getD_eq_getElem?_getD, List.getElem?_eq_getElem hi, Option.getD_some] at hval
    rw [List.getElem?_eq_getElem hi, hval]
  · intro l hl
    have := t.within l hl
    omega
  · intro h1
    apply List.eq_nil_iff_forall_not_mem.2
    intro l hl
    have := t.within l hl
    have := t.nonempty l hl
    omega

/-- Witness for C18: the array `[0,0,3,3,3,5,0]` at start 100 has coordinate
103 covered by a line, and the one-slot array `[5]` gives no line. -/
theorem ToBedgraph_tiles_all_but_last_witness :
    (∃ l ∈ ToBedgraph ⟨⟨1, 100, 107⟩, [0, 0, 3, 3, 3, 5, 0], CovMapMap.empty⟩ "chrom",
        l.start ≤ 103 ∧ 103 < l.stop)
    ∧ ToBedgraph ⟨⟨1, 100, 101⟩, [5], CovMapMap.empty⟩ "chrom" = [] :=
  ⟨((ToBedgraph_tiles_all_but_last ⟨⟨1, 100, 107⟩, [0, 0, 3, 3, 3, 5, 0], CovMapMap.empty⟩
        "chrom" (by decide) (by decide)).2.1 103).2 (by decide),
    (ToBedgraph_tiles_all_but_last ⟨⟨1, 100, 101⟩, [5], CovMapMap.empty⟩ "chrom"
        (by decide) (by decide)).2.2.2.2.2 rfl⟩

/-! ## The machine-counter methods and the exact ones -/

theorem addReadLoopWrap_never (chr e : Int) (he : INT_MAX ≤ e) (fuel : Nat) :
    ∀ (p : Int) (m : CovMapMap), p ≤ INT_MAX → addReadLoopWrap chr e fuel p m = none := by
  induction fuel with
  | zero => intro p m _; rfl
  | succ fuel ih =>
    intro p m hp
    rw [addReadLoopWrap, if_pos (le_trans hp he)]
    exact ih _ _ (wrapInt_le _)

theorem addReadTry_eq (chr e : Int) (fuel : Nat) :
    ∀ (p : Int) (m : CovMapMap),
      addReadTry chr e fuel p m
        = (addReadLoopWrap chr e fuel p m).map (fun t => (t.1, t.2, false)) := by
  induction fuel with
  | zero => intro p m; rfl
  | succ fuel ih =>
    intro p m
    rw [addReadTry, addReadLoopWrap]
    by_cases h : p ≤ e
    · simp only [if_pos h, bumpTry]
      exact ih _ _
    · simp only [if_neg h, Option.map_some']

theorem addRead32_eq (s : STCoverage) (r : BamRead) :
    addRead32 s r = if overflows r then none else some (addRead s r) := by
  unfold addRead32 addRead
  simp only
  by_cases hs : r.Position < 0 ∨ r.PositionEnd < 0
  · have ho : overflows r = false := by
      simp only [overflows, decide_eq_false_iff_not]
      omega
    simp [hs, ho]
  · simp only [if_neg hs]
    by_cases hd : r.PositionEnd < r.Position
    · have ho : overflows r = false := by
        simp only [overflows, decide_eq_false_iff_not]
        omega
      have h0 : (r.PositionEnd + 1 - r.Position).toNat = 0 := by omega
      rw [h0, addReadLoopWrap, if_neg (not_le.2 hd), addReadLoop_done _ _ _ _ hd]
      simp [ho]
    · by_cases hm : INT_MAX ≤ r.PositionEnd
      · have ho : overflows r = true := by
          simp only [overflows, decide_eq_true_eq]
          omega
        have hp : r.Position ≤ INT_MAX ∨ INT_MAX < r.Position := le_or_lt _ _
        rcases hp with hp | hp
        · rw [addReadLoopWrap_never _ _ hm _ _ _ hp]
          simp [ho]
        · rw [addReadLoopWrap, if_pos (by omega),
            addReadLoopWrap_never _ _ hm _ _ _ (wrapInt_le _)]
          simp [ho]
      · have ho : overflows r = false := by
          simp only [overflows, decide_eq_false_iff_not]
          omega
        have hmin : INT_MIN ≤ r.Position := by
          unfold INT_MIN
          omega
        rw [addReadLoopWrap_eq _ _ (by omega) _ _ _ hmin rfl]
        simp [ho]

theorem addReads32_eq (rs : List BamRead) :
    ∀ s : STCoverage,
      addReads32 s rs = if rs.any overflows then none else some (addReads s rs) := by
  induction rs with
  | nil => intro s; simp [addReads32, addReads]
  | cons r rs ih =>
    intro s
    rw [addReads32, addRead32_eq]
    by_cases ho : overflows r = true
    · simp [ho]
    · have ho2 : overflows r = false := by simpa using ho
      simp only [ho2, Option.some_bind, ih, List.any_cons, Bool.false_or, addReads,
        List.foldl_cons, Bool.false_eq_true, if_false]

theorem run32_eq (s : STCoverage) (call : Call) :
    call.run32 s = if call.overflows then none else some (call.run s) := by
  cases call with
  | ingest r => simp only [Call.run32, Call.run, Call.overflows, addRead32_eq]
  | query chr pos => simp [Call.run32, Call.run, Call.overflows]

theorem runCalls32_eq (cs : List Call) :
    ∀ s : STCoverage,
      runCalls32 s cs = if cs.any Call.overflows then none else some (runCalls s cs) := by
  induction cs with
  | nil => intro s; simp [runCalls32, runCalls]
  | cons call cs ih =>
    intro s
    rw [runCalls32, run32_eq]
    by_cases ho : call.overflows = true
    · simp [ho]
    · have ho2 : call.overflows = false := by simpa using ho
      simp only [ho2, Option.some_bind, ih, List.any_cons, Bool.false_or, runCalls,
        List.foldl_cons, Bool.false_eq_true, if_false]

theorem addReadDiag_eq (s : STCoverage) (r : BamRead) :
    addReadDiag s r = (addRead32 s r).map (fun t => (t, [])) := by
  unfold addReadDiag addRead32
  simp only [addReadTry_eq]
  split
  · rfl
  · cases addReadLoopWrap r.ChrID r.PositionEnd
        ((r.PositionEnd + 1 - r.Position).toNat + 1) r.Position s.m_map <;> simp

theorem any_overflows_of_lt (rs : List BamRead) (h : ∀ r ∈ rs, r.PositionEnd < INT_MAX) :
    rs.any overflows = false := by
  rw [List.any_eq_false]
  intro r hr
  have := h r hr
  simp only [overflows, decide_eq_true_eq]
  omega

/-- C1. While every ingested span ends below the largest `int`, the calls
return and the point query at `(c, p)` gives the number of calls whose span is
on chromosome `c`, was not skipped and contains `p`; one such `addRead` adds
one to the value queried on its footprint and nothing elsewhere. For the span
whose position and end position are the largest `int`, the call does not
return: the loop has not exited after any number of tests. -/
theorem coverage_counts_below_int_max :
    (∀ (gr : GenomicRegion) (rs : List BamRead) (c p : Int),
        (∀ r ∈ rs, r.PositionEnd < INT_MAX) →
        ∃ t, addReads32 (STCoverage.new gr) rs = some t
          ∧ (getCoverageAtPosition t c p).1 = rs.countP (covers c p))
    ∧ (∀ (s : STCoverage) (r : BamRead) (c p : Int), r.PositionEnd < INT_MAX →
        ∃ t, addRead32 s r = some t
          ∧ (getCoverageAtPosition t c p).1
              = (getCoverageAtPosition s c p).1 + (if covers c p r then 1 else 0))
    ∧ addReads32 (STCoverage.new ⟨1, 0, 10⟩) [⟨1, INT_MAX, INT_MAX⟩] = none
    ∧ (∀ fuel : Nat, addReadLoopWrap 1 INT_MAX fuel INT_MAX CovMapMap.empty = none) := by
  refine ⟨?_, ?_, ?_, fun fuel => addReadLoopWrap_never 1 _ (le_refl _) fuel _ _ (le_refl _)⟩
  · intro gr rs c p h
    refine ⟨addReads (STCoverage.new gr) rs, ?_, ?_⟩
    · rw [addReads32_eq, any_overflows_of_lt rs h]
      simp
    · rw [getCoverageAtPosition_fst, count_addReads]
      simp [STCoverage.new, count_empty]
  · intro s r c p h
    refine ⟨addRead s r, ?_, ?_⟩
    · have ho := any_overflows_of_lt [r] (by simpa using h)
      simp only [List.any_cons, List.any_nil, Bool.or_false] at ho
      rw [addRead32_eq, ho]
      simp
    · rw [getCoverageAtPosition_fst, getCoverageAtPosition_fst, count_addRead]
  · rw [addReads32_eq]
    rfl

/-- C3. For a valid span `[a, b]` (`0 ≤ a ≤ b`) that ends below the largest
`int`, ingested into a newly constructed accumulator, both sequences of calls
return and the value queried at every position of `[a, b]` after two
ingestions is double the value after one, which is one. For `a = b` the
largest `int`, neither one ingestion nor two return. -/
theorem addRead_twice_below_int_max :
    (∀ (gr : GenomicRegion) (c a b p : Int), 0 ≤ a → a ≤ b → b < INT_MAX → a ≤ p ∧ p ≤ b →
        ∃ t1 t2, addReads32 (STCoverage.new gr) [⟨c, a, b⟩] = some t1
          ∧ addReads32 (STCoverage.new gr) [⟨c, a, b⟩, ⟨c, a, b⟩] = some t2
          ∧ (getCoverageAtPosition t2 c p).1 = 2 * (getCoverageAtPosition t1 c p).1
          ∧ (getCoverageAtPosition t1 c p).1 = 1)
    ∧ addReads32 (STCoverage.new ⟨1, 0, 10⟩) [⟨1, INT_MAX, INT_MAX⟩] = none
    ∧ addReads32 (STCoverage.new ⟨1, 0, 10⟩) [⟨1, INT_MAX, INT_MAX⟩, ⟨1, INT_MAX, INT_MAX⟩]
        = none := by
  refine ⟨?_, ?_, ?_⟩
  · intro gr c a b p ha hab hb hp
    have hcov : covers c p ⟨c, a, b⟩ = true := by
      simp only [covers, decide_eq_true_eq, true_and]
      exact ⟨ha, le_trans ha hab, hp.1, hp.2⟩
    have h1 := any_overflows_of_lt [(⟨c, a, b⟩ : BamRead)] (by simpa using hb)
    have h2 := any_overflows_of_lt [(⟨c, a, b⟩ : BamRead), ⟨c, a, b⟩] (by simpa using hb)
    refine ⟨addReads (STCoverage.new gr) [⟨c, a, b⟩],
      addReads (STCoverage.new gr) [⟨c, a, b⟩, ⟨c, a, b⟩], ?_, ?_, ?_⟩
    · rw [addReads32_eq, h1]; simp
    · rw [addReads32_eq, h2]; simp
    · rw [getCoverageAtPosition_fst, getCoverageAtPosition_fst, count_addReads, count_addReads]
      simp [STCoverage.new, count_empty, hcov]
  · rw [addReads32_eq]; rfl
  · rw [addReads32_eq]; rfl

/-- C4. The point query returns 0 when chromosome id `c` is not a key of the
coverage table, when `c` is a key but position `p` is not a key of its counter,
and when the state is the one in which a sequence of calls on a newly
constructed accumulator returned, no ingestion of which incremented `(c, p)`
(the empty sequence of calls included). The query is a total function: it
returns in every state. -/
theorem getCoverageAtPosition_zero_default (s : STCoverage) (c p : Int)
    (h : s.m_map c = none
      ∨ (∃ cm, s.m_map c = some cm ∧ cm p = none)
      ∨ (∃ gr cs, runCalls32 (STCoverage.new gr) cs = some s
          ∧ cs.countP (Call.covers c p) = 0)) :
    (getCoverageAtPosition s c p).1 = 0 := by
  rw [getCoverageAtPosition_fst]
  rcases h with h | ⟨cm, hm, hp⟩ | ⟨gr, cs, hs, hc⟩
  · simp [CovMapMap.count, h]
  · simp [CovMapMap.count, hm, hp]
  · rw [runCalls32_eq] at hs
    by_cases ho : cs.any Call.overflows = true
    · simp [ho] at hs
    · simp only [ho, Bool.false_eq_true, if_false, Option.some.injEq] at hs
      rw [← hs, count_runCalls, hc]
      simp [STCoverage.new, count_empty]

/-- Witness for C4: a position never incremented on an ingested chromosome,
after a query there, and a chromosome id never seen on a new accumulator. -/
theorem getCoverageAtPosition_zero_default_witness :
    (getCoverageAtPosition
      (runCalls (STCoverage.new ⟨1, 0, 10⟩) [Call.ingest ⟨1, 3, 5⟩, Call.query 1 9]) 1 9).1 = 0
    ∧ (getCoverageAtPosition (STCoverage.new ⟨1, 0, 10⟩) 7 2).1 = 0 :=
  ⟨getCoverageAtPosition_zero_default _ 1 9
      (Or.inr (Or.inr ⟨⟨1, 0, 10⟩, [Call.ingest ⟨1, 3, 5⟩, Call.query 1 9],
        by rw [runCalls32_eq]; rfl, by decide⟩)),
    getCoverageAtPosition_zero_default (STCoverage.new ⟨1, 0, 10⟩) 7 2 (Or.inl rfl)⟩

/-- C19. A point query changes no value that a later query returns: the query
at `(c2, p2)` returns the same value whether or not a query at `(c1, p1)` was
made first, equal pairs included; and after any further sequence of `addRead`
calls the outcome is the same with and without that first query: the calls
return in both cases or in neither, and the later query gives the same value. -/
theorem query_observationally_pure (s : STCoverage) (c1 p1 c2 p2 : Int) (rs : List BamRead) :
    (getCoverageAtPosition (getCoverageAtPosition s c1 p1).2 c2 p2).1
      = (getCoverageAtPosition s c2 p2).1
    ∧ (addReads32 (getCoverageAtPosition s c1 p1).2 rs).map
          (fun t => (getCoverageAtPosition t c2 p2).1)
      = (addReads32 s rs).map (fun t => (getCoverageAtPosition t c2 p2).1) := by
  constructor
  · rw [getCoverageAtPosition_fst, getCoverageAtPosition_fst, getCoverageAtPosition_count]
  · rw [addReads32_eq, addReads32_eq]
    by_cases ho : rs.any overflows = true
    · simp [ho]
    · simp only [ho, Bool.false_eq_true, if_false, Option.map_some', getCoverageAtPosition_fst,
        count_addReads, getCoverageAtPosition_count]

/-- C13. On an accumulator constructed over a region of width 5, ingesting the
valid span `[3, 8]` on chromosome 1, which reaches beyond the 5 slots of the
dense vector, returns with no line written to the diagnostic stream; the
in-bounds positions 3 and 4 of the span are counted once. -/
theorem addRead_out_of_bounds_no_diagnostic :
    (STCoverage.new ⟨1, 0, 5⟩).v.length = 5
    ∧ (addReadDiag (STCoverage.new ⟨1, 0, 5⟩) ⟨1, 3, 8⟩).map Prod.snd = some []
    ∧ (addReadDiag (STCoverage.new ⟨1, 0, 5⟩) ⟨1, 3, 8⟩).map
          (fun t => (getCoverageAtPosition t.1 1 3).1) = some 1
    ∧ (addReadDiag (STCoverage.new ⟨1, 0, 5⟩) ⟨1, 3, 8⟩).map
          (fun t => (getCoverageAtPosition t.1 1 4).1) = some 1 := by
  have ho : overflows ⟨1, 3, 8⟩ = false := by decide
  have hd : addReadDiag (STCoverage.new ⟨1, 0, 5⟩) ⟨1, 3, 8⟩
      = some (addRead (STCoverage.new ⟨1, 0, 5⟩) ⟨1, 3, 8⟩, []) := by
    rw [addReadDiag_eq, addRead32_eq, ho]
    rfl
  rw [hd]
  refine ⟨rfl, rfl, ?_, ?_⟩
  · simp only [Option.map_some', getCoverageAtPosition_fst, count_addRead]
    simp [STCoverage.new, count_empty, covers]
  · simp only [Option.map_some', getCoverageAtPosition_fst, count_addRead]
    simp [STCoverage.new, count_empty, covers]

end SnowTools
